import Mathlib

/-!
Verification of the XCM v1 asset data structures
(src/xcm/src/v1/multiasset.rs) and the v0 migration layer
(src/xcm/src/v0/multi_asset.rs).

The `MultiLocation` type is not part of the sources at hand; the asset code
uses only its equality, its total (derived) order, and a fallible v0-to-v1
conversion.  We therefore model v1 locations as an arbitrary linearly
ordered type `L`, v0 locations as an arbitrary type `M`, and the location
conversion as an arbitrary partial function `conv : M → Option L`.
Fungible amounts are `u128` values, modelled as `Nat` with saturating
addition clamped at `2 ^ 128 - 1`; byte arrays and byte vectors are modelled
as lists of bytes compared lexicographically, as Rust's derived `Ord` does.
-/

set_option maxHeartbeats 1000000

namespace Xcm

/-- Largest value of a `u128`, the type of fungible amounts. -/
def u128Max : Nat := 2 ^ 128 - 1

/-- `u128::saturating_add`, used when merging fungible amounts. -/
def saturatingAdd (a b : Nat) : Nat := min (a + b) u128Max

/-- The comparator induced by a linear order; this is how a Rust derived
`Ord` behaves on a primitive or already-ordered component. -/
def cmpLO {α : Type} [LinearOrder α] (a b : α) : Ordering :=
  if a < b then Ordering.lt else if a = b then Ordering.eq else Ordering.gt

/-- Lexicographic comparator on lists, as Rust's derived `Ord` on
`Vec<u8>` and on fixed-size byte arrays. -/
def cmpList {α : Type} (c : α → α → Ordering) : List α → List α → Ordering
  | [], [] => Ordering.eq
  | [], _ :: _ => Ordering.lt
  | _ :: _, [] => Ordering.gt
  | x :: xs, y :: ys => (c x y).then (cmpList c xs ys)

/-- `AssetInstance` (v1, multiasset.rs lines 44-67): identifier of one
instance of a non-fungible asset class.  Byte arrays are lists of bytes. -/
inductive AssetInstance : Type where
  | Undefined : AssetInstance
  | Index : Nat → AssetInstance
  | Array4 : List Nat → AssetInstance
  | Array8 : List Nat → AssetInstance
  | Array16 : List Nat → AssetInstance
  | Array32 : List Nat → AssetInstance
  | Blob : List Nat → AssetInstance
deriving DecidableEq

/-- Discriminant rank of an `AssetInstance` variant, in declaration order,
used by the derived `Ord` to compare across variants. -/
def AssetInstance.rank : AssetInstance → Nat
  | .Undefined => 0
  | .Index _ => 1
  | .Array4 _ => 2
  | .Array8 _ => 3
  | .Array16 _ => 4
  | .Array32 _ => 5
  | .Blob _ => 6

/-- Derived `Ord` on `AssetInstance`: variant order first, then payloads. -/
def AssetInstance.cmp : AssetInstance → AssetInstance → Ordering
  | .Index x, .Index y => cmpLO x y
  | .Array4 x, .Array4 y => cmpList cmpLO x y
  | .Array8 x, .Array8 y => cmpList cmpLO x y
  | .Array16 x, .Array16 y => cmpList cmpLO x y
  | .Array32 x, .Array32 y => cmpList cmpLO x y
  | .Blob x, .Blob y => cmpList cmpLO x y
  | x, y => cmpLO x.rank y.rank

/-- `AssetId` (v1, lines 108-111): concrete (a location) or abstract
(a byte name). -/
inductive AssetId (L : Type) : Type where
  | Concrete : L → AssetId L
  | Abstract : List Nat → AssetId L
deriving DecidableEq

/-- Derived `Ord` on `AssetId`: `Concrete` before `Abstract`, payloads
compared within a variant. -/
def AssetId.cmp {L : Type} [LinearOrder L] : AssetId L → AssetId L → Ordering
  | .Concrete x, .Concrete y => cmpLO x y
  | .Concrete _, .Abstract _ => Ordering.lt
  | .Abstract _, .Concrete _ => Ordering.gt
  | .Abstract x, .Abstract y => cmpList cmpLO x y

/-- `Fungibility` (v1, lines 162-165). -/
inductive Fungibility : Type where
  | Fungible : Nat → Fungibility
  | NonFungible : AssetInstance → Fungibility
deriving DecidableEq

/-- `WildFungibility` (v1, lines 471-474). -/
inductive WildFungibility : Type where
  | Fungible : WildFungibility
  | NonFungible : WildFungibility
deriving DecidableEq

/-- `Fungibility::is_kind` (v1, lines 168-172). -/
def Fungibility.is_kind : Fungibility → WildFungibility → Bool
  | .Fungible _, .Fungible => true
  | .NonFungible _, .NonFungible => true
  | _, _ => false

/-- Derived `Ord` on `Fungibility`: `Fungible` before `NonFungible`,
payloads compared within a variant. -/
def Fungibility.cmp : Fungibility → Fungibility → Ordering
  | .Fungible x, .Fungible y => cmpLO x y
  | .Fungible _, .NonFungible _ => Ordering.lt
  | .NonFungible _, .Fungible _ => Ordering.gt
  | .NonFungible x, .NonFungible y => AssetInstance.cmp x y

/-- `MultiAsset` (v1, lines 188-192). -/
structure MultiAsset (L : Type) : Type where
  id : AssetId L
  «fun» : Fungibility
deriving DecidableEq

/-- Manual `Ord for MultiAsset` (v1, lines 200-208): any fungible sorts
before any non-fungible; otherwise the pair `(id, fun)` decides. -/
def MultiAsset.cmp {L : Type} [LinearOrder L] (a b : MultiAsset L) : Ordering :=
  match a.«fun», b.«fun» with
  | Fungibility.Fungible _, Fungibility.NonFungible _ => Ordering.lt
  | Fungibility.NonFungible _, Fungibility.Fungible _ => Ordering.gt
  | _, _ => (AssetId.cmp a.id b.id).then (Fungibility.cmp a.«fun» b.«fun»)

/-- `MultiAsset::is_fungible` (v1, lines 217-220). -/
def MultiAsset.is_fungible {L : Type} [LinearOrder L]
    (a : MultiAsset L) (maybe_id : Option (AssetId L)) : Bool :=
  (match a.«fun» with
    | Fungibility.Fungible _ => true
    | Fungibility.NonFungible _ => false) &&
  (match maybe_id with
    | none => true
    | some i => decide (i = a.id))

/-- `MultiAsset::is_non_fungible` (v1, lines 222-225). -/
def MultiAsset.is_non_fungible {L : Type} [LinearOrder L]
    (a : MultiAsset L) (maybe_id : Option (AssetId L)) : Bool :=
  (match a.«fun» with
    | Fungibility.Fungible _ => false
    | Fungibility.NonFungible _ => true) &&
  (match maybe_id with
    | none => true
    | some i => decide (i = a.id))

/-- `MultiAsset::contains` (v1, lines 250-260). -/
def MultiAsset.contains {L : Type} [LinearOrder L]
    (self inner : MultiAsset L) : Bool :=
  if self.id = inner.id then
    match self.«fun», inner.«fun» with
    | Fungibility.Fungible a, Fungibility.Fungible i => decide (i ≤ a)
    | Fungibility.NonFungible a, Fungibility.NonFungible i => decide (a = i)
    | _, _ => false
  else false

/-- The non-strict order on `MultiAsset` induced by its `Ord`. -/
def assetLe {L : Type} [LinearOrder L] (a b : MultiAsset L) : Prop :=
  MultiAsset.cmp a b ≠ Ordering.gt

instance assetLeDecidable {L : Type} [LinearOrder L] :
    DecidableRel (fun a b : MultiAsset L => assetLe a b) := by
  intro a b
  unfold assetLe
  infer_instance

/-- `Vec::sort` on assets: a stable sort by the `MultiAsset` total order
(ties under `cmp` are equal values, so any correct sort agrees). -/
def sortAssets {L : Type} [LinearOrder L] (l : List (MultiAsset L)) :
    List (MultiAsset L) :=
  List.insertionSort (fun a b => assetLe a b) l

/-- The two merging arms of the fold in `From<Vec<MultiAsset>> for
MultiAssets` (v1, lines 333-352): adjacent fungibles with one id merge by
saturating addition; identical adjacent non-fungibles collapse. -/
def mergeTwo {L : Type} [LinearOrder L] (a b : MultiAsset L) :
    Option (MultiAsset L) :=
  match a, b with
  | ⟨aid, Fungibility.Fungible x⟩, ⟨bid, Fungibility.Fungible y⟩ =>
    if aid = bid then some ⟨aid, Fungibility.Fungible (saturatingAdd x y)⟩
    else none
  | ⟨aid, Fungibility.NonFungible u⟩, ⟨bid, Fungibility.NonFungible v⟩ =>
    if aid = bid ∧ u = v then some ⟨aid, Fungibility.NonFungible u⟩ else none
  | _, _ => none

/-- The fold of `From<Vec<MultiAsset>> for MultiAssets` (v1, lines
331-353), applied to the first sorted element and the remaining ones:
pushes the running element whenever it does not merge with its
successor. -/
def mergeFold {L : Type} [LinearOrder L] :
    MultiAsset L → List (MultiAsset L) → List (MultiAsset L)
  | a, [] => [a]
  | a, b :: rest =>
    match mergeTwo a b with
    | some m => mergeFold m rest
    | none => a :: mergeFold b rest

/-- `MultiAssets` (v1, line 305): the canonical collection. -/
structure MultiAssets (L : Type) : Type where
  inner : List (MultiAsset L)
deriving DecidableEq

/-- `MultiAssets::new` (v1, lines 368-370). -/
def MultiAssets.new {L : Type} [LinearOrder L] : MultiAssets L := ⟨[]⟩

/-- `impl From<Vec<MultiAsset>> for MultiAssets` (v1, lines 326-358):
sort, then merge adjacent mergeable entries. -/
def MultiAssets.fromVec {L : Type} [LinearOrder L]
    (assets : List (MultiAsset L)) : MultiAssets L :=
  match sortAssets assets with
  | [] => ⟨[]⟩
  | first :: rest => ⟨mergeFold first rest⟩

/-- The adjacency test of `MultiAssets::from_sorted_and_deduplicated`
(v1, line 384): `a.id < b.id || a < b && (a.is_non_fungible(None) ||
b.is_non_fungible(None))`. -/
def adjacentOk {L : Type} [LinearOrder L] (a b : MultiAsset L) : Bool :=
  decide (AssetId.cmp a.id b.id = Ordering.lt) ||
    (decide (MultiAsset.cmp a b = Ordering.lt) &&
      (a.is_non_fungible none || b.is_non_fungible none))

/-- The `try_fold` over adjacent pairs in
`MultiAssets::from_sorted_and_deduplicated` (v1, lines 383-389). -/
def checkAdj {L : Type} [LinearOrder L] :
    MultiAsset L → List (MultiAsset L) → Bool
  | _, [] => true
  | a, b :: rest => adjacentOk a b && checkAdj b rest

/-- `MultiAssets::from_sorted_and_deduplicated` (v1, lines 379-391). -/
def MultiAssets.from_sorted_and_deduplicated {L : Type} [LinearOrder L]
    (r : List (MultiAsset L)) : Option (MultiAssets L) :=
  match r with
  | [] => some ⟨[]⟩
  | a :: rest => if checkAdj a rest then some ⟨a :: rest⟩ else none

/-- The in-place merging loop of `MultiAssets::push` (v1, lines 416-423):
find the first entry with the pushed id that is fungible and add into it,
reporting `none` when no such entry exists. -/
def pushMerge {L : Type} [LinearOrder L] :
    List (MultiAsset L) → AssetId L → Nat → Option (List (MultiAsset L))
  | [], _, _ => none
  | x :: rest, i, amount =>
    if x.id = i then
      match x.«fun» with
      | Fungibility.Fungible balance =>
        some (⟨x.id, Fungibility.Fungible (saturatingAdd balance amount)⟩ :: rest)
      | Fungibility.NonFungible _ =>
        (pushMerge rest i amount).map (fun t => x :: t)
    else (pushMerge rest i amount).map (fun t => x :: t)

/-- `MultiAssets::push` (v1, lines 415-426): merge into a fungible entry
of equal id when possible, otherwise append and re-sort. -/
def MultiAssets.push {L : Type} [LinearOrder L]
    (s : MultiAssets L) (a : MultiAsset L) : MultiAssets L :=
  match a.«fun» with
  | Fungibility.Fungible amount =>
    match pushMerge s.inner a.id amount with
    | some l => ⟨l⟩
    | none => ⟨sortAssets (s.inner ++ [a])⟩
  | Fungibility.NonFungible _ => ⟨sortAssets (s.inner ++ [a])⟩

/-- `MultiAssets::contains` (v1, lines 434-436). -/
def MultiAssets.contains {L : Type} [LinearOrder L]
    (s : MultiAssets L) (inner : MultiAsset L) : Bool :=
  s.inner.any (fun i => i.contains inner)

/-- `WildMultiAsset` (v1, lines 479-488). -/
inductive WildMultiAsset (L : Type) : Type where
  | All : WildMultiAsset L
  | AllOf : AssetId L → WildFungibility → WildMultiAsset L
deriving DecidableEq

/-- `WildMultiAsset::contains` (v1, lines 524-530). -/
def WildMultiAsset.contains {L : Type} [LinearOrder L] :
    WildMultiAsset L → MultiAsset L → Bool
  | .AllOf i f, inner => inner.«fun».is_kind f && decide (inner.id = i)
  | .All, _ => true

namespace V0

/-- v0 `MultiAsset` (src/xcm/src/v0/multi_asset.rs lines 94-153), over an
arbitrary v0 location type `M`. -/
inductive MultiAsset (M : Type) : Type where
  | None : MultiAsset M
  | All : MultiAsset M
  | AllFungible : MultiAsset M
  | AllNonFungible : MultiAsset M
  | AllAbstractFungible : List Nat → MultiAsset M
  | AllAbstractNonFungible : List Nat → MultiAsset M
  | AllConcreteFungible : M → MultiAsset M
  | AllConcreteNonFungible : M → MultiAsset M
  | AbstractFungible : List Nat → Nat → MultiAsset M
  | AbstractNonFungible : List Nat → AssetInstance → MultiAsset M
  | ConcreteFungible : M → Nat → MultiAsset M
  | ConcreteNonFungible : M → AssetInstance → MultiAsset M

/-- v0 `MultiAsset::is_wildcard` (v0, lines 160-176). -/
def MultiAsset.is_wildcard {M : Type} : MultiAsset M → Bool
  | .None => false
  | .AbstractFungible _ _ => false
  | .AbstractNonFungible _ _ => false
  | .ConcreteFungible _ _ => false
  | .ConcreteNonFungible _ _ => false
  | .All => true
  | .AllFungible => true
  | .AllNonFungible => true
  | .AllAbstractFungible _ => true
  | .AllConcreteFungible _ => true
  | .AllAbstractNonFungible _ => true
  | .AllConcreteNonFungible _ => true

end V0

/-- `impl TryFrom<v0::MultiAsset> for MultiAsset` (v1, lines 263-279);
`conv` is the fallible v0-to-v1 location conversion. -/
def MultiAsset.tryFromV0 {M L : Type} [LinearOrder L] (conv : M → Option L) :
    V0.MultiAsset M → Option (MultiAsset L)
  | V0.MultiAsset.ConcreteFungible i amount =>
    (conv i).map (fun l => ⟨AssetId.Concrete l, Fungibility.Fungible amount⟩)
  | V0.MultiAsset.ConcreteNonFungible c inst =>
    (conv c).map (fun l => ⟨AssetId.Concrete l, Fungibility.NonFungible inst⟩)
  | V0.MultiAsset.AbstractFungible i amount =>
    some ⟨AssetId.Abstract i, Fungibility.Fungible amount⟩
  | V0.MultiAsset.AbstractNonFungible c inst =>
    some ⟨AssetId.Abstract c, Fungibility.NonFungible inst⟩
  | _ => none

/-- `impl TryFrom<v0::MultiAsset> for Option<MultiAsset>` (v1, lines
281-289): `None` becomes an absent asset, everything else converts. -/
def MultiAsset.optionTryFromV0 {M L : Type} [LinearOrder L]
    (conv : M → Option L) : V0.MultiAsset M → Option (Option (MultiAsset L))
  | V0.MultiAsset.None => some none
  | x => (MultiAsset.tryFromV0 conv x).map some

/-- The `filter_map`-and-collect step of `impl TryFrom<Vec<v0::MultiAsset>>
for MultiAssets` (v1, lines 317-321). -/
def collectV0 {M L : Type} [LinearOrder L] (conv : M → Option L) :
    List (V0.MultiAsset M) → Option (List (MultiAsset L))
  | [] => some []
  | x :: rest =>
    match MultiAsset.optionTryFromV0 conv x with
    | none => none
    | some none => collectV0 conv rest
    | some (some a) => (collectV0 conv rest).map (fun t => a :: t)

/-- `impl TryFrom<Vec<v0::MultiAsset>> for MultiAssets` (v1, lines
314-324): collect the element conversions, then normalize via `From`. -/
def MultiAssets.tryFromV0Vec {M L : Type} [LinearOrder L]
    (conv : M → Option L) (old : List (V0.MultiAsset M)) :
    Option (MultiAssets L) :=
  (collectV0 conv old).map MultiAssets.fromVec

/-- `impl TryFrom<Vec<v0::MultiAsset>> for MultiAsset` (v1, lines
291-300): only a one-element list converts. -/
def MultiAsset.tryFromV0Vec {M L : Type} [LinearOrder L]
    (conv : M → Option L) : List (V0.MultiAsset M) → Option (MultiAsset L)
  | [z] => MultiAsset.tryFromV0 conv z
  | _ => none

/-- `impl TryFrom<v0::MultiAsset> for WildMultiAsset` (v1, lines
490-506). -/
def WildMultiAsset.tryFromV0 {M L : Type} [LinearOrder L]
    (conv : M → Option L) : V0.MultiAsset M → Option (WildMultiAsset L)
  | V0.MultiAsset.All => some WildMultiAsset.All
  | V0.MultiAsset.AllConcreteFungible i =>
    (conv i).map (fun l => WildMultiAsset.AllOf (AssetId.Concrete l) WildFungibility.Fungible)
  | V0.MultiAsset.AllConcreteNonFungible c =>
    (conv c).map (fun l => WildMultiAsset.AllOf (AssetId.Concrete l) WildFungibility.NonFungible)
  | V0.MultiAsset.AllAbstractFungible i =>
    some (WildMultiAsset.AllOf (AssetId.Abstract i) WildFungibility.Fungible)
  | V0.MultiAsset.AllAbstractNonFungible c =>
    some (WildMultiAsset.AllOf (AssetId.Abstract c) WildFungibility.NonFungible)
  | _ => none

/-- `impl TryFrom<Vec<v0::MultiAsset>> for WildMultiAsset` (v1, lines
508-517): only a one-element list converts. -/
def WildMultiAsset.tryFromV0Vec {M L : Type} [LinearOrder L]
    (conv : M → Option L) : List (V0.MultiAsset M) → Option (WildMultiAsset L)
  | [z] => WildMultiAsset.tryFromV0 conv z
  | _ => none

/-- A lawful comparator: `eq` characterises equality, swapping the
arguments swaps the outcome, and the induced non-strict order is
transitive.  Rust's derived and hand-written `Ord` implementations used
here all satisfy this. -/
structure IsLawfulCmp {α : Type} (c : α → α → Ordering) : Prop where
  eq_iff : ∀ a b, c a b = Ordering.eq ↔ a = b
  swap_eq : ∀ a b, (c a b).swap = c b a
  le_trans : ∀ a b d, c a b ≠ Ordering.gt → c b d ≠ Ordering.gt →
    c a d ≠ Ordering.gt

/-- An asset is fungible (property form). -/
def isF {L : Type} (a : MultiAsset L) : Prop :=
  ∃ x, a.«fun» = Fungibility.Fungible x

/-- An asset is non-fungible (property form). -/
def isNF {L : Type} (a : MultiAsset L) : Prop :=
  ∃ u, a.«fun» = Fungibility.NonFungible u

/-- Invariant of the normalizing fold of `From<Vec<MultiAsset>>`: two
adjacent entries are either already in order, or are same-id fungibles
that the fold is about to merge. -/
def mergeRel {L : Type} [LinearOrder L] (a b : MultiAsset L) : Prop :=
  assetLe a b ∨ (a.id = b.id ∧ isF a ∧ isF b)

/-- Pairwise separation: fungible entries carry distinct ids, and
non-fungible entries are pairwise distinct values. -/
def sepOk {L : Type} [LinearOrder L] (x y : MultiAsset L) : Prop :=
  (isF x → isF y → x.id ≠ y.id) ∧ (isNF x → isNF y → x ≠ y)

/-- Strong strict order extracted from a sorted list that passes the
decode-path adjacency check. -/
def strongLt {L : Type} [LinearOrder L] (x y : MultiAsset L) : Prop :=
  assetLe x y ∧ (isF x → isF y → AssetId.cmp x.id y.id = Ordering.lt) ∧
    (isNF x → isNF y → MultiAsset.cmp x y = Ordering.lt)

end Xcm

namespace Xcm

theorem ordering_then_eq_eq (o p : Ordering) :
    o.then p = Ordering.eq ↔ (o = Ordering.eq ∧ p = Ordering.eq) := by
  cases o <;> simp [Ordering.then]

theorem ordering_then_swap (o p : Ordering) :
    (o.then p).swap = o.swap.then p.swap := by
  cases o <;> simp [Ordering.then, Ordering.swap]

theorem cmpLO_eq_lt {α : Type} [LinearOrder α] (a b : α) :
    cmpLO a b = Ordering.lt ↔ a < b := by
  unfold cmpLO
  split
  · simp_all
  · split <;> simp_all

theorem cmpLO_eq_eq {α : Type} [LinearOrder α] (a b : α) :
    cmpLO a b = Ordering.eq ↔ a = b := by
  unfold cmpLO
  split
  · simp_all [ne_of_lt]
  · split <;> simp_all

theorem cmpLO_eq_gt {α : Type} [LinearOrder α] (a b : α) :
    cmpLO a b = Ordering.gt ↔ b < a := by
  unfold cmpLO
  rcases lt_trichotomy a b with h | h | h
  · rw [if_pos h]
    simp [asymm h]
  · rw [if_neg (by simp [h]), if_pos h]
    simp [h]
  · rw [if_neg (asymm h), if_neg (ne_of_gt h)]
    simp [h]

theorem cmpLO_ne_gt {α : Type} [LinearOrder α] (a b : α) :
    cmpLO a b ≠ Ordering.gt ↔ a ≤ b := by
  rw [Ne, cmpLO_eq_gt, not_lt]

theorem cmpLO_swap {α : Type} [LinearOrder α] (a b : α) :
    (cmpLO a b).swap = cmpLO b a := by
  rcases lt_trichotomy a b with h | h | h
  · rw [(cmpLO_eq_lt a b).mpr h, (cmpLO_eq_gt b a).mpr h]
    rfl
  · rw [(cmpLO_eq_eq a b).mpr h, (cmpLO_eq_eq b a).mpr h.symm]
    rfl
  · rw [(cmpLO_eq_gt a b).mpr h, (cmpLO_eq_lt b a).mpr h]
    rfl

theorem cmpLO_le_trans {α : Type} [LinearOrder α] {a b d : α}
    (h1 : cmpLO a b ≠ Ordering.gt) (h2 : cmpLO b d ≠ Ordering.gt) :
    cmpLO a d ≠ Ordering.gt := by
  rw [cmpLO_ne_gt] at h1 h2 ⊢
  exact le_trans h1 h2

theorem lawful_cmpLO {α : Type} [LinearOrder α] :
    IsLawfulCmp (α := α) cmpLO :=
  ⟨cmpLO_eq_eq, cmpLO_swap, fun _ _ _ => cmpLO_le_trans⟩

theorem lawful_refl {α : Type} {c : α → α → Ordering} (hc : IsLawfulCmp c)
    (a : α) : c a a = Ordering.eq :=
  (hc.eq_iff a a).mpr rfl

theorem lawful_lt_trans {α : Type} {c : α → α → Ordering}
    (hc : IsLawfulCmp c) {a b d : α} (h1 : c a b = Ordering.lt)
    (h2 : c b d = Ordering.lt) : c a d = Ordering.lt := by
  have hne : c a d ≠ Ordering.gt :=
    hc.le_trans a b d (by simp [h1]) (by simp [h2])
  rcases e : c a d with _ | _ | _
  · rfl
  · exfalso
    have had : a = d := (hc.eq_iff a d).mp e
    subst had
    have hsw := hc.swap_eq a b
    rw [h1, h2] at hsw
    exact absurd hsw (by decide)
  · exact absurd e hne

theorem lex_le_trans {α : Type} {c1 : α → α → Ordering}
    (h1 : IsLawfulCmp c1) {a b d : α} {p q r : Ordering}
    (hpqr : p ≠ Ordering.gt → q ≠ Ordering.gt → r ≠ Ordering.gt)
    (hab : (c1 a b).then p ≠ Ordering.gt)
    (hbd : (c1 b d).then q ≠ Ordering.gt) :
    (c1 a d).then r ≠ Ordering.gt := by
  rcases e1 : c1 a b with _ | _ | _
  · rcases e2 : c1 b d with _ | _ | _
    · rw [show c1 a d = Ordering.lt from lawful_lt_trans h1 e1 e2]
      simp [Ordering.then]
    · have hbd' : b = d := (h1.eq_iff b d).mp e2
      subst hbd'
      rw [e1]
      simp [Ordering.then]
    · rw [e2] at hbd
      exact (hbd rfl).elim
  · have hab' : a = b := (h1.eq_iff a b).mp e1
    subst hab'
    rw [e1] at hab
    have hp : p ≠ Ordering.gt := hab
    rcases e2 : c1 a d with _ | _ | _
    · simp [Ordering.then]
    · rw [e2] at hbd
      have hq : q ≠ Ordering.gt := hbd
      intro hcon
      exact hpqr hp hq hcon
    · rw [e2] at hbd
      exact (hbd rfl).elim
  · rw [e1] at hab
    exact (hab rfl).elim

theorem cmpList_eq_eq {α : Type} {c : α → α → Ordering}
    (hc : IsLawfulCmp c) :
    ∀ l1 l2 : List α, cmpList c l1 l2 = Ordering.eq ↔ l1 = l2 := by
  intro l1
  induction l1 with
  | nil => intro l2; cases l2 <;> simp [cmpList]
  | cons x xs ih =>
    intro l2
    cases l2 with
    | nil => simp [cmpList]
    | cons y ys => simp [cmpList, ordering_then_eq_eq, hc.eq_iff, ih]

theorem cmpList_swap {α : Type} {c : α → α → Ordering}
    (hc : IsLawfulCmp c) :
    ∀ l1 l2 : List α, (cmpList c l1 l2).swap = cmpList c l2 l1 := by
  intro l1
  induction l1 with
  | nil => intro l2; cases l2 <;> rfl
  | cons x xs ih =>
    intro l2
    cases l2 with
    | nil => rfl
    | cons y ys =>
      simp only [cmpList]
      rw [ordering_then_swap, hc.swap_eq, ih]

theorem cmpList_le_trans {α : Type} {c : α → α → Ordering}
    (hc : IsLawfulCmp c) :
    ∀ l1 l2 l3 : List α, cmpList c l1 l2 ≠ Ordering.gt →
      cmpList c l2 l3 ≠ Ordering.gt → cmpList c l1 l3 ≠ Ordering.gt := by
  intro l1
  induction l1 with
  | nil =>
    intro l2 l3 _ _
    cases l3 <;> simp [cmpList]
  | cons x xs ih =>
    intro l2 l3 h12 h23
    cases l2 with
    | nil => exact absurd rfl h12
    | cons y ys =>
      cases l3 with
      | nil => exact absurd rfl h23
      | cons z zs =>
        exact lex_le_trans hc (ih ys zs) h12 h23

theorem lawful_cmpList {α : Type} {c : α → α → Ordering}
    (hc : IsLawfulCmp c) : IsLawfulCmp (cmpList c) :=
  ⟨cmpList_eq_eq hc, cmpList_swap hc, cmpList_le_trans hc⟩

theorem cmpListLO_eq_eq (l1 l2 : List Nat) :
    cmpList cmpLO l1 l2 = Ordering.eq ↔ l1 = l2 :=
  (lawful_cmpList lawful_cmpLO).eq_iff l1 l2

theorem cmpListLO_swap (l1 l2 : List Nat) :
    (cmpList cmpLO l1 l2).swap = cmpList cmpLO l2 l1 :=
  (lawful_cmpList lawful_cmpLO).swap_eq l1 l2

end Xcm

namespace Xcm

theorem assetInstanceCmp_eq_iff (a b : AssetInstance) :
    AssetInstance.cmp a b = Ordering.eq ↔ a = b := by
  cases a <;> cases b <;>
    simp [AssetInstance.cmp, AssetInstance.rank, cmpLO_eq_eq, cmpListLO_eq_eq]

theorem assetInstanceCmp_swap (a b : AssetInstance) :
    (AssetInstance.cmp a b).swap = AssetInstance.cmp b a := by
  cases a <;> cases b <;>
    simp [AssetInstance.cmp, AssetInstance.rank, cmpLO_swap, cmpListLO_swap]

theorem assetInstanceCmp_le_trans (a b c : AssetInstance)
    (h1 : AssetInstance.cmp a b ≠ Ordering.gt)
    (h2 : AssetInstance.cmp b c ≠ Ordering.gt) :
    AssetInstance.cmp a c ≠ Ordering.gt := by
  cases a <;> cases b <;> cases c <;>
    simp only [AssetInstance.cmp, AssetInstance.rank] at h1 h2 ⊢ <;>
    first
      | exact absurd h1 (by decide)
      | exact absurd h2 (by decide)
      | decide
      | exact cmpLO_le_trans h1 h2
      | exact cmpList_le_trans lawful_cmpLO _ _ _ h1 h2

theorem lawful_assetInstanceCmp : IsLawfulCmp AssetInstance.cmp :=
  ⟨assetInstanceCmp_eq_iff, assetInstanceCmp_swap, assetInstanceCmp_le_trans⟩

theorem assetIdCmp_eq_iff {L : Type} [LinearOrder L] (a b : AssetId L) :
    AssetId.cmp a b = Ordering.eq ↔ a = b := by
  cases a <;> cases b <;>
    simp [AssetId.cmp, cmpLO_eq_eq, cmpListLO_eq_eq]

theorem assetIdCmp_swap {L : Type} [LinearOrder L] (a b : AssetId L) :
    (AssetId.cmp a b).swap = AssetId.cmp b a := by
  cases a <;> cases b <;>
    first
      | rfl
      | simp [AssetId.cmp, cmpLO_swap, cmpListLO_swap]

theorem assetIdCmp_le_trans {L : Type} [LinearOrder L] (a b c : AssetId L)
    (h1 : AssetId.cmp a b ≠ Ordering.gt)
    (h2 : AssetId.cmp b c ≠ Ordering.gt) :
    AssetId.cmp a c ≠ Ordering.gt := by
  cases a <;> cases b <;> cases c <;>
    simp only [AssetId.cmp] at h1 h2 ⊢ <;>
    first
      | exact absurd h1 (by decide)
      | exact absurd h2 (by decide)
      | decide
      | exact cmpLO_le_trans h1 h2
      | exact cmpList_le_trans lawful_cmpLO _ _ _ h1 h2

theorem lawful_assetIdCmp {L : Type} [LinearOrder L] :
    IsLawfulCmp (AssetId.cmp (L := L)) :=
  ⟨assetIdCmp_eq_iff, assetIdCmp_swap, assetIdCmp_le_trans⟩

theorem fungibilityCmp_eq_iff (a b : Fungibility) :
    Fungibility.cmp a b = Ordering.eq ↔ a = b := by
  cases a <;> cases b <;>
    simp [Fungibility.cmp, cmpLO_eq_eq, assetInstanceCmp_eq_iff]

theorem fungibilityCmp_swap (a b : Fungibility) :
    (Fungibility.cmp a b).swap = Fungibility.cmp b a := by
  cases a <;> cases b <;>
    first
      | rfl
      | simp [Fungibility.cmp, cmpLO_swap, assetInstanceCmp_swap]

theorem fungibilityCmp_le_trans (a b c : Fungibility)
    (h1 : Fungibility.cmp a b ≠ Ordering.gt)
    (h2 : Fungibility.cmp b c ≠ Ordering.gt) :
    Fungibility.cmp a c ≠ Ordering.gt := by
  cases a <;> cases b <;> cases c <;>
    simp only [Fungibility.cmp] at h1 h2 ⊢ <;>
    first
      | exact absurd h1 (by decide)
      | exact absurd h2 (by decide)
      | decide
      | exact cmpLO_le_trans h1 h2
      | exact assetInstanceCmp_le_trans _ _ _ h1 h2

theorem lawful_fungibilityCmp : IsLawfulCmp Fungibility.cmp :=
  ⟨fungibilityCmp_eq_iff, fungibilityCmp_swap, fungibilityCmp_le_trans⟩

end Xcm

namespace Xcm

theorem cmp_mk_FF {L : Type} [LinearOrder L] (i j : AssetId L) (x y : Nat) :
    MultiAsset.cmp ⟨i, Fungibility.Fungible x⟩ ⟨j, Fungibility.Fungible y⟩ =
      (AssetId.cmp i j).then (cmpLO x y) := rfl

theorem cmp_mk_FN {L : Type} [LinearOrder L] (i j : AssetId L) (x : Nat)
    (u : AssetInstance) :
    MultiAsset.cmp ⟨i, Fungibility.Fungible x⟩ ⟨j, Fungibility.NonFungible u⟩ =
      Ordering.lt := rfl

theorem cmp_mk_NF {L : Type} [LinearOrder L] (i j : AssetId L) (x : Nat)
    (u : AssetInstance) :
    MultiAsset.cmp ⟨i, Fungibility.NonFungible u⟩ ⟨j, Fungibility.Fungible x⟩ =
      Ordering.gt := rfl

theorem cmp_mk_NN {L : Type} [LinearOrder L] (i j : AssetId L)
    (u v : AssetInstance) :
    MultiAsset.cmp ⟨i, Fungibility.NonFungible u⟩ ⟨j, Fungibility.NonFungible v⟩ =
      (AssetId.cmp i j).then (AssetInstance.cmp u v) := rfl

theorem multiAssetCmp_eq_iff {L : Type} [LinearOrder L] (a b : MultiAsset L) :
    MultiAsset.cmp a b = Ordering.eq ↔ a = b := by
  obtain ⟨ia, fa⟩ := a
  obtain ⟨ib, fb⟩ := b
  cases fa <;> cases fb <;>
    simp [MultiAsset.cmp, ordering_then_eq_eq, assetIdCmp_eq_iff,
      Fungibility.cmp, cmpLO_eq_eq, assetInstanceCmp_eq_iff]

theorem multiAssetCmp_swap {L : Type} [LinearOrder L] (a b : MultiAsset L) :
    (MultiAsset.cmp a b).swap = MultiAsset.cmp b a := by
  obtain ⟨ia, fa⟩ := a
  obtain ⟨ib, fb⟩ := b
  cases fa <;> cases fb <;>
    first
      | rfl
      | (simp only [MultiAsset.cmp]
         rw [ordering_then_swap, assetIdCmp_swap, fungibilityCmp_swap])

theorem multiAssetCmp_le_trans {L : Type} [LinearOrder L]
    (a b c : MultiAsset L) (h1 : MultiAsset.cmp a b ≠ Ordering.gt)
    (h2 : MultiAsset.cmp b c ≠ Ordering.gt) :
    MultiAsset.cmp a c ≠ Ordering.gt := by
  obtain ⟨ia, fa⟩ := a
  obtain ⟨ib, fb⟩ := b
  obtain ⟨ic, fc⟩ := c
  cases fa <;> cases fb <;> cases fc <;>
    simp only [MultiAsset.cmp] at h1 h2 ⊢ <;>
    first
      | exact absurd h1 (by decide)
      | exact absurd h2 (by decide)
      | decide
      | exact lex_le_trans lawful_assetIdCmp
          (fungibilityCmp_le_trans _ _ _) h1 h2

theorem lawful_multiAssetCmp {L : Type} [LinearOrder L] :
    IsLawfulCmp (MultiAsset.cmp (L := L)) :=
  ⟨multiAssetCmp_eq_iff, multiAssetCmp_swap, multiAssetCmp_le_trans⟩

theorem assetLe_refl {L : Type} [LinearOrder L] (a : MultiAsset L) :
    assetLe a a := by
  unfold assetLe
  rw [lawful_refl lawful_multiAssetCmp]
  decide

theorem assetLe_total {L : Type} [LinearOrder L] (a b : MultiAsset L) :
    assetLe a b ∨ assetLe b a := by
  unfold assetLe
  rcases e : MultiAsset.cmp a b with _ | _ | _
  · left; decide
  · left; decide
  · right
    have hsw := multiAssetCmp_swap a b
    rw [e] at hsw
    rw [← hsw]
    decide

instance assetLeIsTotal {L : Type} [LinearOrder L] :
    IsTotal (MultiAsset L) (fun a b => assetLe a b) :=
  ⟨assetLe_total⟩

instance assetLeIsTrans {L : Type} [LinearOrder L] :
    IsTrans (MultiAsset L) (fun a b => assetLe a b) :=
  ⟨fun a b c => multiAssetCmp_le_trans a b c⟩

theorem sortAssets_sorted {L : Type} [LinearOrder L]
    (l : List (MultiAsset L)) :
    List.Sorted (fun a b => assetLe a b) (sortAssets l) :=
  List.sorted_insertionSort _ l

theorem sortAssets_perm {L : Type} [LinearOrder L]
    (l : List (MultiAsset L)) : (sortAssets l).Perm l :=
  List.perm_insertionSort _ l

end Xcm

namespace Xcm

theorem ordering_then_ne_gt_left {o p : Ordering}
    (h : o.then p ≠ Ordering.gt) : o ≠ Ordering.gt := by
  cases o <;> simp_all [Ordering.then]

theorem mergeTwo_some {L : Type} [LinearOrder L] {a b m : MultiAsset L}
    (e : mergeTwo a b = some m) :
    m.id = a.id ∧ a.id = b.id ∧ ((isF a ∧ isF b ∧ isF m) ∨ (m = a ∧ a = b)) := by
  obtain ⟨ia, fa⟩ := a
  obtain ⟨ib, fb⟩ := b
  cases fa <;> cases fb <;> simp only [mergeTwo] at e
  case Fungible.Fungible x y =>
    by_cases hid : ia = ib
    · rw [if_pos hid] at e
      obtain rfl := (Option.some_inj.mp e).symm
      exact ⟨rfl, by simp [hid], Or.inl ⟨⟨x, rfl⟩, ⟨y, rfl⟩, ⟨_, rfl⟩⟩⟩
    · rw [if_neg hid] at e
      exact absurd e (by simp)
  case Fungible.NonFungible x u => exact absurd e (by simp)
  case NonFungible.Fungible u x => exact absurd e (by simp)
  case NonFungible.NonFungible u v =>
    by_cases hid : ia = ib ∧ u = v
    · rw [if_pos hid] at e
      obtain rfl := (Option.some_inj.mp e).symm
      exact ⟨rfl, by simp [hid.1], Or.inr ⟨rfl, by simp [hid.1, hid.2]⟩⟩
    · rw [if_neg hid] at e
      exact absurd e (by simp)

theorem mergeTwo_none {L : Type} [LinearOrder L] {a b : MultiAsset L}
    (e : mergeTwo a b = none) :
    (isF a → isF b → a.id ≠ b.id) ∧ (isNF a → isNF b → a ≠ b) := by
  obtain ⟨ia, fa⟩ := a
  obtain ⟨ib, fb⟩ := b
  cases fa <;> cases fb <;> simp only [mergeTwo] at e
  case Fungible.Fungible x y =>
    refine ⟨fun _ _ => ?_, fun h _ => absurd h (by simp [isNF])⟩
    intro hid
    simp only [MultiAsset.mk.injEq] at hid
    rw [if_pos hid] at e
    exact absurd e (by simp)
  case Fungible.NonFungible x u =>
    exact ⟨fun _ h => absurd h (by simp [isF]), fun h _ => absurd h (by simp [isNF])⟩
  case NonFungible.Fungible u x =>
    exact ⟨fun h _ => absurd h (by simp [isF]), fun _ h => absurd h (by simp [isNF])⟩
  case NonFungible.NonFungible u v =>
    refine ⟨fun h _ => absurd h (by simp [isF]), fun _ _ => ?_⟩
    intro hab
    simp only [MultiAsset.mk.injEq, Fungibility.NonFungible.injEq] at hab
    rw [if_pos hab] at e
    exact absurd e (by simp)

theorem chain'_replace_head {α : Type} {R : α → α → Prop} {b m : α}
    {rest : List α} (h : List.Chain' R (b :: rest))
    (f : ∀ c, R b c → R m c) : List.Chain' R (m :: rest) := by
  cases rest with
  | nil => simp
  | cons c cs =>
    rw [List.chain'_cons] at h ⊢
    exact ⟨f c h.1, h.2⟩

theorem mergeRel_replace_left {L : Type} [LinearOrder L]
    {b m c : MultiAsset L} (hid : m.id = b.id) (hbF : isF b) (hmF : isF m)
    (h : mergeRel b c) : mergeRel m c := by
  obtain ⟨x, hx⟩ := hbF
  obtain ⟨x', hx'⟩ := hmF
  rcases h with h | ⟨hid2, _, hcF⟩
  · obtain ⟨ic, fc⟩ := c
    cases fc with
    | Fungible z =>
      obtain ⟨ib, fb⟩ := b
      obtain ⟨im, fm⟩ := m
      simp only at hx hx'
      subst hx hx'
      simp only at hid
      subst hid
      unfold assetLe at h
      rw [cmp_mk_FF] at h
      have h1 := ordering_then_ne_gt_left h
      rcases e : AssetId.cmp im ic with _ | _ | _
      · left
        unfold assetLe
        rw [cmp_mk_FF, e]
        simp [Ordering.then]
      · right
        exact ⟨(assetIdCmp_eq_iff im ic).mp e, ⟨x', rfl⟩, ⟨z, rfl⟩⟩
      · exact absurd e h1
    | NonFungible u =>
      left
      unfold assetLe
      obtain ⟨im, fm⟩ := m
      simp only at hx'
      subst hx'
      rw [cmp_mk_FN]
      decide
  · right
    exact ⟨hid.trans hid2, ⟨x', hx'⟩, hcF⟩

theorem mergeFold_head {L : Type} [LinearOrder L] :
    ∀ (rest : List (MultiAsset L)) (a : MultiAsset L),
      ∃ h t, mergeFold a rest = h :: t ∧ h.id = a.id ∧
        (isF a → isF h) ∧ (isNF a → h = a) := by
  intro rest
  induction rest with
  | nil => intro a; exact ⟨a, [], rfl, rfl, fun h => h, fun _ => rfl⟩
  | cons b rest ih =>
    intro a
    rcases e : mergeTwo a b with _ | m
    · obtain ⟨h, t, he, hid, hF, hN⟩ := ih b
      refine ⟨a, mergeFold b rest, ?_, rfl, fun h => h, fun _ => rfl⟩
      simp only [mergeFold, e]
    · obtain ⟨h, t, he, hid, hF, hN⟩ := ih m
      obtain ⟨hm1, hm2, hm3⟩ := mergeTwo_some e
      refine ⟨h, t, ?_, ?_, ?_, ?_⟩
      · simp only [mergeFold, e]
        exact he
      · rw [hid, hm1]
      · rcases hm3 with ⟨_, _, hmF⟩ | ⟨rfl, _⟩
        · exact fun _ => hF hmF
        · exact hF
      · intro haN
        rcases hm3 with ⟨haF, _, _⟩ | ⟨rfl, _⟩
        · obtain ⟨u, hu⟩ := haN
          obtain ⟨x, hx⟩ := haF
          rw [hu] at hx
          exact absurd hx (by simp)
        · exact hN haN

theorem adjacentOk_of_id_lt {L : Type} [LinearOrder L] {a b : MultiAsset L}
    (h : AssetId.cmp a.id b.id = Ordering.lt) : adjacentOk a b = true := by
  simp [adjacentOk, h]

theorem adjacentOk_of_lt_right_NF {L : Type} [LinearOrder L]
    {a b : MultiAsset L} (h : MultiAsset.cmp a b = Ordering.lt)
    (hb : isNF b) : adjacentOk a b = true := by
  obtain ⟨u, hu⟩ := hb
  simp [adjacentOk, h, MultiAsset.is_non_fungible, hu]

theorem assetLe_lt_of_ne {L : Type} [LinearOrder L] {a b : MultiAsset L}
    (h : assetLe a b) (hne : a ≠ b) : MultiAsset.cmp a b = Ordering.lt := by
  rcases e : MultiAsset.cmp a b with _ | _ | _
  · rfl
  · exact absurd ((multiAssetCmp_eq_iff a b).mp e) hne
  · exact absurd e h

theorem assetLe_FF_id_lt {L : Type} [LinearOrder L] {ia ib : AssetId L}
    {x y : Nat}
    (h : assetLe ⟨ia, Fungibility.Fungible x⟩ ⟨ib, Fungibility.Fungible y⟩)
    (hne : ia ≠ ib) : AssetId.cmp ia ib = Ordering.lt := by
  unfold assetLe at h
  rw [cmp_mk_FF] at h
  have h1 := ordering_then_ne_gt_left h
  rcases e : AssetId.cmp ia ib with _ | _ | _
  · rfl
  · exact absurd ((assetIdCmp_eq_iff ia ib).mp e) hne
  · exact absurd e h1

theorem mergeFold_valid {L : Type} [LinearOrder L] :
    ∀ (rest : List (MultiAsset L)) (a : MultiAsset L),
      List.Chain' mergeRel (a :: rest) →
      ∃ h t, mergeFold a rest = h :: t ∧ checkAdj h t = true := by
  intro rest
  induction rest with
  | nil => intro a _; exact ⟨a, [], rfl, rfl⟩
  | cons b rest ih =>
    intro a hch
    obtain ⟨hab, htail⟩ := List.chain'_cons.mp hch
    rcases e : mergeTwo a b with _ | m
    · -- no merge: push `a` and continue from `b`
      obtain ⟨h, t, he, hc⟩ := ih b htail
      obtain ⟨hh, th, heh, hidh, hFh, hNh⟩ := mergeFold_head rest b
      rw [he] at heh
      injection heh with h1 h2
      subst h1
      subst h2
      have hnone := mergeTwo_none e
      have hle : assetLe a b := by
        rcases hab with hle | ⟨hid, haF, hbF⟩
        · exact hle
        · exact absurd hid (hnone.1 haF hbF)
      have hadj : adjacentOk a h = true := by
        obtain ⟨ia, fa⟩ := a
        obtain ⟨ib, fb⟩ := b
        cases fa with
        | Fungible x =>
          cases fb with
          | Fungible y =>
            have hne : ia ≠ ib := by
              intro hid
              exact hnone.1 ⟨x, rfl⟩ ⟨y, rfl⟩ (by simp [hid])
            apply adjacentOk_of_id_lt
            have : AssetId.cmp ia ib = Ordering.lt := assetLe_FF_id_lt hle hne
            simp only [hidh]
            exact this
          | NonFungible v =>
            have hb : h = ⟨ib, Fungibility.NonFungible v⟩ := hNh ⟨v, rfl⟩
            subst hb
            exact adjacentOk_of_lt_right_NF (cmp_mk_FN _ _ _ _) ⟨v, rfl⟩
        | NonFungible u =>
          cases fb with
          | Fungible y =>
            exact absurd (cmp_mk_NF ia ib y u) hle
          | NonFungible v =>
            have hb : h = ⟨ib, Fungibility.NonFungible v⟩ := hNh ⟨v, rfl⟩
            subst hb
            have hne : MultiAsset.mk ia (Fungibility.NonFungible u) ≠
                ⟨ib, Fungibility.NonFungible v⟩ := by
              intro hid
              exact hnone.2 ⟨u, rfl⟩ ⟨v, rfl⟩ hid
            exact adjacentOk_of_lt_right_NF (assetLe_lt_of_ne hle hne) ⟨v, rfl⟩
      refine ⟨a, h :: t, ?_, ?_⟩
      · simp only [mergeFold, e]
        rw [he]
      · simp only [checkAdj, hadj, hc]
        rfl
    · -- merge: continue with `m`
      obtain ⟨hm1, hm2, hm3⟩ := mergeTwo_some e
      have hch' : List.Chain' mergeRel (m :: rest) := by
        rcases hm3 with ⟨haF, hbF, hmF⟩ | ⟨rfl, rfl⟩
        · exact chain'_replace_head htail
            (fun c hc => mergeRel_replace_left (hm1.trans hm2) hbF hmF hc)
        · exact htail
      obtain ⟨h, t, he, hc⟩ := ih m hch'
      refine ⟨h, t, ?_, hc⟩
      simp only [mergeFold, e]
      exact he

end Xcm

namespace Xcm

theorem checkAdj_iff_chain {L : Type} [LinearOrder L] :
    ∀ (rest : List (MultiAsset L)) (a : MultiAsset L),
      checkAdj a rest = true ↔
        List.Chain' (fun x y => adjacentOk x y = true) (a :: rest) := by
  intro rest
  induction rest with
  | nil => intro a; simp [checkAdj]
  | cons b rest ih =>
    intro a
    rw [List.chain'_cons]
    simp [checkAdj, ih b]

theorem from_sorted_isSome_iff {L : Type} [LinearOrder L]
    (r : List (MultiAsset L)) :
    (MultiAssets.from_sorted_and_deduplicated r).isSome = true ↔
      List.Chain' (fun x y => adjacentOk x y = true) r := by
  cases r with
  | nil => simp [MultiAssets.from_sorted_and_deduplicated]
  | cons a rest =>
    unfold MultiAssets.from_sorted_and_deduplicated
    rw [← checkAdj_iff_chain]
    by_cases h : checkAdj a rest = true
    · simp [h]
    · simp [h]

theorem adjacentOk_iff {L : Type} [LinearOrder L] (a b : MultiAsset L) :
    adjacentOk a b = true ↔
      (AssetId.cmp a.id b.id = Ordering.lt ∨
        (MultiAsset.cmp a b = Ordering.lt ∧ (isNF a ∨ isNF b))) := by
  unfold adjacentOk
  obtain ⟨ia, fa⟩ := a
  obtain ⟨ib, fb⟩ := b
  cases fa <;> cases fb <;>
    simp [MultiAsset.is_non_fungible, isNF]

theorem not_isF_isNF {L : Type} {x : MultiAsset L} (h1 : isF x)
    (h2 : isNF x) : False := by
  obtain ⟨a, ha⟩ := h1
  obtain ⟨b, hb⟩ := h2
  rw [ha] at hb
  exact absurd hb (by simp)

theorem isF_or_isNF {L : Type} (x : MultiAsset L) : isF x ∨ isNF x := by
  obtain ⟨i, f⟩ := x
  cases f with
  | Fungible a => exact Or.inl ⟨a, rfl⟩
  | NonFungible u => exact Or.inr ⟨u, rfl⟩

theorem assetLe_NF_left {L : Type} [LinearOrder L] {x y : MultiAsset L}
    (h : assetLe x y) (hx : isNF x) : isNF y := by
  rcases isF_or_isNF y with hy | hy
  · obtain ⟨u, hu⟩ := hx
    obtain ⟨a, ha⟩ := hy
    obtain ⟨ix, fx⟩ := x
    obtain ⟨iy, fy⟩ := y
    simp only at hu ha
    subst hu ha
    exact absurd (cmp_mk_NF ix iy a u) h
  · exact hy

theorem assetLe_F_right {L : Type} [LinearOrder L] {x y : MultiAsset L}
    (h : assetLe x y) (hy : isF y) : isF x := by
  rcases isF_or_isNF x with hx | hx
  · exact hx
  · exact absurd hy (fun hf => not_isF_isNF hf (assetLe_NF_left h hx))

theorem strongLt_of_adj {L : Type} [LinearOrder L] {x y : MultiAsset L}
    (hle : assetLe x y) (hadj : adjacentOk x y = true) : strongLt x y := by
  rw [adjacentOk_iff] at hadj
  refine ⟨hle, ?_, ?_⟩
  · intro hxF hyF
    rcases hadj with h | ⟨_, hN | hN⟩
    · exact h
    · exact absurd hN (not_isF_isNF hxF)
    · exact absurd hN (not_isF_isNF hyF)
  · intro hxN hyN
    rcases hadj with h | ⟨h, _⟩
    · obtain ⟨u, hu⟩ := hxN
      obtain ⟨v, hv⟩ := hyN
      obtain ⟨ix, fx⟩ := x
      obtain ⟨iy, fy⟩ := y
      simp only at hu hv
      subst hu hv
      simp only at h
      rw [cmp_mk_NN, h]
      simp [Ordering.then]
    · exact h

theorem strongLt_trans {L : Type} [LinearOrder L] (x y z : MultiAsset L)
    (h1 : strongLt x y) (h2 : strongLt y z) : strongLt x z := by
  obtain ⟨hle1, hF1, hN1⟩ := h1
  obtain ⟨hle2, hF2, hN2⟩ := h2
  refine ⟨multiAssetCmp_le_trans x y z hle1 hle2, ?_, ?_⟩
  · intro hxF hzF
    have hyF : isF y := assetLe_F_right hle2 hzF
    exact lawful_lt_trans lawful_assetIdCmp (hF1 hxF hyF) (hF2 hyF hzF)
  · intro hxN hzN
    have hyN : isNF y := assetLe_NF_left hle1 hxN
    exact lawful_lt_trans lawful_multiAssetCmp (hN1 hxN hyN) (hN2 hyN hzN)

instance strongLtIsTrans {L : Type} [LinearOrder L] :
    IsTrans (MultiAsset L) strongLt :=
  ⟨strongLt_trans⟩

theorem chain'_and {α : Type} {R S : α → α → Prop} :
    ∀ {l : List α}, List.Chain' R l → List.Chain' S l →
      List.Chain' (fun a b => R a b ∧ S a b) l := by
  intro l
  induction l with
  | nil => intro _ _; simp
  | cons a t ih =>
    intro h1 h2
    cases t with
    | nil => simp
    | cons b tt =>
      rw [List.chain'_cons] at h1 h2 ⊢
      exact ⟨⟨h1.1, h2.1⟩, ih h1.2 h2.2⟩

theorem sorted_valid_pairwise {L : Type} [LinearOrder L]
    {l : List (MultiAsset L)}
    (hs : List.Sorted (fun a b => assetLe a b) l)
    (hv : List.Chain' (fun x y => adjacentOk x y = true) l) :
    List.Pairwise strongLt l := by
  have hch : List.Chain' strongLt l :=
    (chain'_and hs.chain' hv).imp (fun _ _ h => strongLt_of_adj h.1 h.2)
  exact List.chain'_iff_pairwise.mp hch

theorem sepOk_of_strongLt {L : Type} [LinearOrder L] {x y : MultiAsset L}
    (h : strongLt x y) : sepOk x y := by
  obtain ⟨_, hF, hN⟩ := h
  refine ⟨fun hxF hyF hid => ?_, fun hxN hyN hxy => ?_⟩
  · have := hF hxF hyF
    rw [hid, lawful_refl lawful_assetIdCmp] at this
    exact absurd this (by decide)
  · have := hN hxN hyN
    rw [hxy, lawful_refl lawful_multiAssetCmp] at this
    exact absurd this (by decide)

theorem sepOk_symm {L : Type} [LinearOrder L] {x y : MultiAsset L}
    (h : sepOk x y) : sepOk y x :=
  ⟨fun h1 h2 => Ne.symm (h.1 h2 h1), fun h1 h2 => Ne.symm (h.2 h2 h1)⟩

theorem adjacentOk_of_le_sep {L : Type} [LinearOrder L] {x y : MultiAsset L}
    (hle : assetLe x y) (hsep : sepOk x y) : adjacentOk x y = true := by
  obtain ⟨ix, fx⟩ := x
  obtain ⟨iy, fy⟩ := y
  cases fx with
  | Fungible a =>
    cases fy with
    | Fungible b =>
      have hne : ix ≠ iy := by
        intro hid
        exact hsep.1 ⟨a, rfl⟩ ⟨b, rfl⟩ hid
      exact adjacentOk_of_id_lt (assetLe_FF_id_lt hle hne)
    | NonFungible v =>
      exact adjacentOk_of_lt_right_NF (cmp_mk_FN _ _ _ _) ⟨v, rfl⟩
  | NonFungible u =>
    cases fy with
    | Fungible b => exact absurd (cmp_mk_NF ix iy b u) hle
    | NonFungible v =>
      have hne : MultiAsset.mk ix (Fungibility.NonFungible u) ≠
          ⟨iy, Fungibility.NonFungible v⟩ :=
        hsep.2 ⟨u, rfl⟩ ⟨v, rfl⟩
      exact adjacentOk_of_lt_right_NF (assetLe_lt_of_ne hle hne) ⟨v, rfl⟩

theorem sorted_sep_valid {L : Type} [LinearOrder L]
    {l : List (MultiAsset L)}
    (hs : List.Sorted (fun a b => assetLe a b) l)
    (hp : List.Pairwise sepOk l) :
    List.Chain' (fun x y => adjacentOk x y = true) l :=
  (chain'_and hs.chain' hp.chain').imp
    (fun _ _ h => adjacentOk_of_le_sep h.1 h.2)

end Xcm

namespace Xcm

theorem adjacentOk_amount_left {L : Type} [LinearOrder L] (i : AssetId L)
    (x y : Nat) (c : MultiAsset L) :
    adjacentOk ⟨i, Fungibility.Fungible x⟩ c =
      adjacentOk ⟨i, Fungibility.Fungible y⟩ c := by
  obtain ⟨ic, fc⟩ := c
  cases fc with
  | Fungible z =>
    simp [adjacentOk, MultiAsset.is_non_fungible]
  | NonFungible u =>
    simp [adjacentOk, MultiAsset.is_non_fungible, cmp_mk_FN]

theorem adjacentOk_amount_right {L : Type} [LinearOrder L] (i : AssetId L)
    (x y : Nat) (c : MultiAsset L) :
    adjacentOk c ⟨i, Fungibility.Fungible x⟩ =
      adjacentOk c ⟨i, Fungibility.Fungible y⟩ := by
  obtain ⟨ic, fc⟩ := c
  cases fc with
  | Fungible z =>
    simp [adjacentOk, MultiAsset.is_non_fungible]
  | NonFungible u =>
    simp [adjacentOk, MultiAsset.is_non_fungible, cmp_mk_NF]

theorem pushMerge_none_isNF {L : Type} [LinearOrder L] :
    ∀ (l : List (MultiAsset L)) (i : AssetId L) (amt : Nat),
      pushMerge l i amt = none → ∀ x ∈ l, x.id = i → isNF x := by
  intro l
  induction l with
  | nil => intro i amt _ x hx; exact absurd hx (by simp)
  | cons y rest ih =>
    intro i amt e x hx hxi
    simp only [pushMerge] at e
    by_cases hid : y.id = i
    · rw [if_pos hid] at e
      rcases hf : y.«fun» with bal | u
      · rw [hf] at e
        exact absurd e (by simp)
      · rw [hf] at e
        rcases List.mem_cons.mp hx with rfl | hx'
        · exact ⟨u, hf⟩
        · rcases er : pushMerge rest i amt with _ | t'
          · exact ih i amt er x hx' hxi
          · rw [er] at e
            exact absurd e (by simp)
    · rw [if_neg hid] at e
      rcases List.mem_cons.mp hx with rfl | hx'
      · exact absurd hxi hid
      · rcases er : pushMerge rest i amt with _ | t'
        · exact ih i amt er x hx' hxi
        · rw [er] at e
          exact absurd e (by simp)

theorem pushMerge_chain {L : Type} [LinearOrder L] :
    ∀ (l : List (MultiAsset L)) (i : AssetId L) (amt : Nat)
      (l' : List (MultiAsset L)), pushMerge l i amt = some l' →
      ∀ h t, l = h :: t →
      ∃ h' t', l' = h' :: t' ∧
        (∀ z, adjacentOk z h = true → adjacentOk z h' = true) ∧
        (List.Chain' (fun x y => adjacentOk x y = true) l →
          List.Chain' (fun x y => adjacentOk x y = true) l') := by
  intro l
  induction l with
  | nil => intro i amt l' e; exact absurd e (by simp [pushMerge])
  | cons x rest ih =>
    intro i amt l' e h t hl
    injection hl with hl1 hl2
    subst hl1
    subst hl2
    simp only [pushMerge] at e
    by_cases hid : x.id = i
    · rw [if_pos hid] at e
      rcases hf : x.«fun» with bal | u
      · rw [hf] at e
        obtain rfl := Option.some_inj.mp e
        obtain ⟨hi, hfun⟩ := x
        simp only at hf
        subst hf
        refine ⟨_, _, rfl, ?_, ?_⟩
        · intro z hz
          simp only
          rw [adjacentOk_amount_right hi (saturatingAdd bal amt) bal]
          exact hz
        · intro hch
          refine chain'_replace_head hch (fun c hc => ?_)
          simp only
          rw [adjacentOk_amount_left hi (saturatingAdd bal amt) bal]
          exact hc
      · rw [hf] at e
        rcases er : pushMerge rest i amt with _ | t'
        · rw [er] at e
          exact absurd e (by simp)
        · rw [er] at e
          obtain rfl := Option.some_inj.mp e
          cases rest with
          | nil => exact absurd er (by simp [pushMerge])
          | cons r0 rr =>
            obtain ⟨h', tt, rfl, hheads, hchain⟩ := ih i amt t' er r0 rr rfl
            refine ⟨x, h' :: tt, rfl, fun z hz => hz, ?_⟩
            intro hch
            obtain ⟨hadj, hch'⟩ := List.chain'_cons.mp hch
            exact List.chain'_cons.mpr ⟨hheads x hadj, hchain hch'⟩
    · rw [if_neg hid] at e
      rcases er : pushMerge rest i amt with _ | t'
      · rw [er] at e
        exact absurd e (by simp)
      · rw [er] at e
        obtain rfl := Option.some_inj.mp e
        cases rest with
        | nil => exact absurd er (by simp [pushMerge])
        | cons r0 rr =>
          obtain ⟨h', tt, rfl, hheads, hchain⟩ := ih i amt t' er r0 rr rfl
          refine ⟨x, h' :: tt, rfl, fun z hz => hz, ?_⟩
          intro hch
          obtain ⟨hadj, hch'⟩ := List.chain'_cons.mp hch
          exact List.chain'_cons.mpr ⟨hheads x hadj, hchain hch'⟩

theorem push_F_eq {L : Type} [LinearOrder L] (s : MultiAssets L)
    (i : AssetId L) (amt : Nat) :
    MultiAssets.push s ⟨i, Fungibility.Fungible amt⟩ =
      (match pushMerge s.inner i amt with
        | some l => ⟨l⟩
        | none => ⟨sortAssets (s.inner ++ [⟨i, Fungibility.Fungible amt⟩])⟩) :=
  rfl

theorem push_NF_eq {L : Type} [LinearOrder L] (s : MultiAssets L)
    (i : AssetId L) (u : AssetInstance) :
    MultiAssets.push s ⟨i, Fungibility.NonFungible u⟩ =
      ⟨sortAssets (s.inner ++ [⟨i, Fungibility.NonFungible u⟩])⟩ :=
  rfl

theorem push_valid {L : Type} [LinearOrder L] (s : MultiAssets L)
    (a : MultiAsset L)
    (hs : List.Sorted (fun x y => assetLe x y) s.inner)
    (hv : List.Chain' (fun x y => adjacentOk x y = true) s.inner)
    (hfresh : isNF a → a ∉ s.inner) :
    List.Chain' (fun x y => adjacentOk x y = true)
      (MultiAssets.push s a).inner := by
  have hpair : List.Pairwise sepOk s.inner :=
    (sorted_valid_pairwise hs hv).imp (fun h => sepOk_of_strongLt h)
  obtain ⟨ia, fa⟩ := a
  cases fa with
  | Fungible amt =>
    rw [push_F_eq]
    rcases e : pushMerge s.inner ia amt with _ | l'
    · simp only
      apply sorted_sep_valid (sortAssets_sorted _)
      rw [(sortAssets_perm _).pairwise_iff (fun h => sepOk_symm h),
        List.pairwise_append]
      refine ⟨hpair, by simp, ?_⟩
      intro x hx y hy
      simp only [List.mem_singleton] at hy
      subst hy
      refine ⟨fun hxF _ hid => ?_,
        fun _ hyN _ => not_isF_isNF ⟨amt, rfl⟩ hyN⟩
      exact not_isF_isNF hxF (pushMerge_none_isNF _ _ _ e x hx hid)
    · simp only
      cases hsi : s.inner with
      | nil =>
        rw [hsi] at e
        exact absurd e (by simp [pushMerge])
      | cons h0 t0 =>
        rw [hsi] at e hv
        obtain ⟨h', t', rfl, _, hchain⟩ :=
          pushMerge_chain _ ia amt l' e h0 t0 rfl
        exact hchain hv
  | NonFungible u =>
    rw [push_NF_eq]
    apply sorted_sep_valid (sortAssets_sorted _)
    rw [(sortAssets_perm _).pairwise_iff (fun h => sepOk_symm h),
      List.pairwise_append]
    refine ⟨hpair, by simp, ?_⟩
    intro x hx y hy
    simp only [List.mem_singleton] at hy
    subst hy
    refine ⟨fun _ hyF _ => not_isF_isNF hyF ⟨u, rfl⟩, fun hxN _ hxy => ?_⟩
    apply hfresh ⟨u, rfl⟩
    rw [← hxy]
    exact hx

end Xcm

namespace Xcm

theorem fromVec_accepted {L : Type} [LinearOrder L]
    (v : List (MultiAsset L)) :
    MultiAssets.from_sorted_and_deduplicated (MultiAssets.fromVec v).inner =
      some (MultiAssets.fromVec v) := by
  rcases e : sortAssets v with _ | ⟨a, rest⟩
  · have e' : MultiAssets.fromVec v = ⟨[]⟩ := by
      unfold MultiAssets.fromVec
      rw [e]
    rw [e']
    rfl
  · have hs : List.Sorted (fun x y => assetLe x y) (a :: rest) := by
      rw [← e]
      exact sortAssets_sorted v
    have hch : List.Chain' mergeRel (a :: rest) :=
      (List.Pairwise.chain' hs).imp (fun x y h => Or.inl h)
    obtain ⟨h, t, he, hc⟩ := mergeFold_valid rest a hch
    have e' : MultiAssets.fromVec v = ⟨mergeFold a rest⟩ := by
      unfold MultiAssets.fromVec
      rw [e]
    rw [e', he]
    simp [MultiAssets.from_sorted_and_deduplicated, hc]

theorem saturatingAdd_comm (a b : Nat) : saturatingAdd a b = saturatingAdd b a := by
  unfold saturatingAdd
  rw [Nat.add_comm]

theorem sortAssets_pair {L : Type} [LinearOrder L] (a b : MultiAsset L) :
    sortAssets [a, b] = if assetLe a b then [a, b] else [b, a] := by
  unfold sortAssets
  simp [List.insertionSort, List.orderedInsert]

theorem fromVec_two_fungible {L : Type} [LinearOrder L] (i : AssetId L)
    (x y : Nat) :
    MultiAssets.fromVec
        [⟨i, Fungibility.Fungible x⟩, ⟨i, Fungibility.Fungible y⟩] =
      ⟨[⟨i, Fungibility.Fungible (saturatingAdd x y)⟩]⟩ := by
  unfold MultiAssets.fromVec
  rw [sortAssets_pair]
  by_cases hle :
      assetLe ⟨i, Fungibility.Fungible x⟩ ⟨i, Fungibility.Fungible y⟩
  · rw [if_pos hle]
    simp [mergeFold, mergeTwo]
  · rw [if_neg hle]
    simp [mergeFold, mergeTwo, saturatingAdd_comm y x]

theorem contains_zero_iff {L : Type} [LinearOrder L] (s : MultiAssets L)
    (i : AssetId L) :
    MultiAssets.contains s ⟨i, Fungibility.Fungible 0⟩ =
      s.inner.any (fun x => x.is_fungible (some i)) := by
  unfold MultiAssets.contains
  congr 1
  funext x
  obtain ⟨xi, xf⟩ := x
  cases xf <;>
    simp [MultiAsset.contains, MultiAsset.is_fungible, eq_comm]

theorem is_non_fungible_none_iff {L : Type} [LinearOrder L]
    (a : MultiAsset L) : a.is_non_fungible none = true ↔ isNF a := by
  obtain ⟨i, f⟩ := a
  cases f <;> simp [MultiAsset.is_non_fungible, isNF]

theorem tryFromV0_wild_none {M L : Type} [LinearOrder L]
    (conv : M → Option L) (z : V0.MultiAsset M)
    (hz : z = V0.MultiAsset.None ∨ z.is_wildcard = true) :
    MultiAsset.tryFromV0 conv z = none := by
  cases z <;>
    first
      | rfl
      | (rcases hz with h | h
         · exact absurd h (by simp)
         · exact absurd h (by simp [V0.MultiAsset.is_wildcard]))

theorem collectV0_wild_none {M L : Type} [LinearOrder L]
    (conv : M → Option L) :
    ∀ (l : List (V0.MultiAsset M)) (z : V0.MultiAsset M), z ∈ l →
      z.is_wildcard = true → collectV0 conv l = none := by
  intro l
  induction l with
  | nil => intro z hz _; simp at hz
  | cons x rest ih =>
    intro z hz hw
    rcases List.mem_cons.mp hz with rfl | hz'
    · have hnone : MultiAsset.optionTryFromV0 conv z = none := by
        cases z <;> simp [V0.MultiAsset.is_wildcard] at hw <;>
          simp [MultiAsset.optionTryFromV0, MultiAsset.tryFromV0]
      simp [collectV0, hnone]
    · have hr := ih z hz' hw
      unfold collectV0
      rcases MultiAsset.optionTryFromV0 conv x with _ | (_ | a) <;>
        simp [hr]

theorem tryFromV0Vec_wild_none {M L : Type} [LinearOrder L]
    (conv : M → Option L) (l : List (V0.MultiAsset M))
    (z : V0.MultiAsset M) (hz : z ∈ l) (hw : z.is_wildcard = true) :
    MultiAssets.tryFromV0Vec conv l = none := by
  unfold MultiAssets.tryFromV0Vec
  rw [collectV0_wild_none conv l z hz hw]
  rfl

end Xcm

open Xcm

/-- Claim C1: for two fungible assets with one shared id, the infallible
constructor `MultiAssets::from` merges them into exactly one entry carrying
that id and the saturating sum of the two amounts. -/
theorem claim_C1 {L : Type} [LinearOrder L] (i : AssetId L) (x y : Nat) :
    MultiAssets.fromVec
        [⟨i, Fungibility.Fungible x⟩, ⟨i, Fungibility.Fungible y⟩] =
      ⟨[⟨i, Fungibility.Fungible (saturatingAdd x y)⟩]⟩ :=
  fromVec_two_fungible i x y

/-- Witness for C1 at a concrete input. -/
theorem claim_C1_witness :
    MultiAssets.fromVec
        [(⟨AssetId.Abstract [0], Fungibility.Fungible 2⟩ : MultiAsset Nat),
         ⟨AssetId.Abstract [0], Fungibility.Fungible 3⟩] =
      ⟨[⟨AssetId.Abstract [0], Fungibility.Fungible (saturatingAdd 2 3)⟩]⟩ :=
  claim_C1 (AssetId.Abstract [0]) 2 3

/-- Claim C2 counterexample: a list of two identical non-fungible entries
with the same id is rejected by `from_sorted_and_deduplicated`, although
the claim says such a list is accepted. -/
theorem claim_C2_counterexample :
    MultiAssets.from_sorted_and_deduplicated
        [(⟨AssetId.Abstract [],
            Fungibility.NonFungible AssetInstance.Undefined⟩ : MultiAsset Nat),
          ⟨AssetId.Abstract [],
            Fungibility.NonFungible AssetInstance.Undefined⟩] = none := by
  decide

/-- Claim C2 (amended): `from_sorted_and_deduplicated r` succeeds iff `r`
is empty or every adjacent pair is strictly ascending by id, or strictly
ascending in the full `MultiAsset` order with at least one of the two
entries non-fungible; in particular two equal adjacent non-fungible
entries are rejected, not accepted. -/
theorem claim_C2_amended {L : Type} [LinearOrder L]
    (r : List (MultiAsset L)) :
    (MultiAssets.from_sorted_and_deduplicated r).isSome = true ↔
      List.Chain'
        (fun a b => AssetId.cmp a.id b.id = Ordering.lt ∨
          (MultiAsset.cmp a b = Ordering.lt ∧ (isNF a ∨ isNF b))) r := by
  rw [from_sorted_isSome_iff]
  constructor
  · intro h
    exact h.imp (fun _ _ hab => (adjacentOk_iff _ _).mp hab)
  · intro h
    exact h.imp (fun _ _ hab => (adjacentOk_iff _ _).mpr hab)

/-- Witness for the amended C2 at a concrete input. -/
theorem claim_C2_witness :
    (MultiAssets.from_sorted_and_deduplicated
        ([] : List (MultiAsset Nat))).isSome = true ↔
      List.Chain'
        (fun a b => AssetId.cmp a.id b.id = Ordering.lt ∨
          (MultiAsset.cmp a b = Ordering.lt ∧ (isNF a ∨ isNF b)))
        ([] : List (MultiAsset Nat)) :=
  claim_C2_amended []

/-- Claim C3: the vector produced by the normalizing constructor
`MultiAssets::from` is always accepted by `from_sorted_and_deduplicated`. -/
theorem claim_C3 {L : Type} [LinearOrder L] (v : List (MultiAsset L)) :
    MultiAssets.from_sorted_and_deduplicated (MultiAssets.fromVec v).inner =
      some (MultiAssets.fromVec v) :=
  fromVec_accepted v

/-- Witness for C3 at a concrete input. -/
theorem claim_C3_witness :
    MultiAssets.from_sorted_and_deduplicated
        (MultiAssets.fromVec
          [(⟨AssetId.Abstract [1], Fungibility.Fungible 7⟩ : MultiAsset Nat),
            ⟨AssetId.Abstract [1],
              Fungibility.NonFungible AssetInstance.Undefined⟩,
            ⟨AssetId.Abstract [1], Fungibility.Fungible 4⟩]).inner =
      some (MultiAssets.fromVec
        [⟨AssetId.Abstract [1], Fungibility.Fungible 7⟩,
          ⟨AssetId.Abstract [1],
            Fungibility.NonFungible AssetInstance.Undefined⟩,
          ⟨AssetId.Abstract [1], Fungibility.Fungible 4⟩]) :=
  claim_C3 _

/-- Claim C4 counterexample: the empty collection does not contain the
zero fungible asset, although the claim says every `MultiAssets`
(including the empty one) contains it. -/
theorem claim_C4_counterexample :
    MultiAssets.contains (MultiAssets.new (L := Nat))
      ⟨AssetId.Abstract [], Fungibility.Fungible 0⟩ = false := by
  decide

/-- Claim C4 (amended): in v1, a zero-amount fungible asset is contained
in a collection exactly when some entry is fungible with the same id; the
empty collection therefore contains nothing, and the "zero is contained
by everything" rule does not hold for v1 `MultiAssets::contains`. -/
theorem claim_C4_amended {L : Type} [LinearOrder L] (s : MultiAssets L)
    (i : AssetId L) :
    MultiAssets.contains s ⟨i, Fungibility.Fungible 0⟩ =
      s.inner.any (fun x => x.is_fungible (some i)) :=
  contains_zero_iff s i

/-- Witness for the amended C4 at a concrete input. -/
theorem claim_C4_witness :
    MultiAssets.contains
        (⟨[⟨AssetId.Abstract [2], Fungibility.Fungible 9⟩]⟩ : MultiAssets Nat)
        ⟨AssetId.Abstract [2], Fungibility.Fungible 0⟩ =
      List.any
        ([⟨AssetId.Abstract [2], Fungibility.Fungible 9⟩] :
          List (MultiAsset Nat))
        (fun x => x.is_fungible (some (AssetId.Abstract [2]))) :=
  claim_C4_amended _ _

/-- Claim C5: `MultiAsset::contains` holds iff the ids agree and either
both assets are fungible with the container's amount at least the inner
amount, or both are non-fungible with the same instance; consequently it
is reflexive on fungible assets of positive amount. -/
theorem claim_C5 {L : Type} [LinearOrder L] :
    (∀ s t : MultiAsset L, MultiAsset.contains s t = true ↔
      (s.id = t.id ∧
        ((∃ a b, s.«fun» = Fungibility.Fungible a ∧
            t.«fun» = Fungibility.Fungible b ∧ b ≤ a) ∨
          (∃ u, s.«fun» = Fungibility.NonFungible u ∧
            t.«fun» = Fungibility.NonFungible u)))) ∧
    (∀ (i : AssetId L) (x : Nat), 0 < x →
      MultiAsset.contains ⟨i, Fungibility.Fungible x⟩
        ⟨i, Fungibility.Fungible x⟩ = true) := by
  constructor
  · intro s t
    obtain ⟨si, sf⟩ := s
    obtain ⟨ti, tf⟩ := t
    cases sf <;> cases tf <;>
      simp [MultiAsset.contains] <;>
      exact fun _ => eq_comm
  · intro i x _
    simp [MultiAsset.contains]

/-- Witness for C5 at a concrete input. -/
theorem claim_C5_witness :
    (0 < 4 ∧
      MultiAsset.contains
        (⟨AssetId.Abstract [3], Fungibility.Fungible 4⟩ : MultiAsset Nat)
        ⟨AssetId.Abstract [3], Fungibility.Fungible 4⟩ = true) :=
  ⟨by decide, (claim_C5 (L := Nat)).2 (AssetId.Abstract [3]) 4 (by decide)⟩

/-- Claim C6: `WildMultiAsset::All` contains every asset; `AllOf{id,fun}`
contains exactly the assets of that id whose fungibility matches the
wildcard kind — a fungible wildcard matches a fungible asset of the same
id and rejects a non-fungible one. -/
theorem claim_C6 {L : Type} [LinearOrder L] :
    (∀ inner : MultiAsset L,
      WildMultiAsset.contains WildMultiAsset.All inner = true) ∧
    (∀ (i : AssetId L) (f : WildFungibility) (inner : MultiAsset L),
      WildMultiAsset.contains (WildMultiAsset.AllOf i f) inner = true ↔
        (inner.«fun».is_kind f = true ∧ inner.id = i)) ∧
    (∀ (i : AssetId L) (x : Nat),
      WildMultiAsset.contains (WildMultiAsset.AllOf i WildFungibility.Fungible)
        ⟨i, Fungibility.Fungible x⟩ = true) ∧
    (∀ (i : AssetId L) (u : AssetInstance),
      WildMultiAsset.contains (WildMultiAsset.AllOf i WildFungibility.Fungible)
        ⟨i, Fungibility.NonFungible u⟩ = false) := by
  refine ⟨fun inner => rfl, fun i f inner => ?_, fun i x => ?_, fun i u => ?_⟩
  · simp [WildMultiAsset.contains]
  · simp [WildMultiAsset.contains, Fungibility.is_kind]
  · simp [WildMultiAsset.contains, Fungibility.is_kind]

/-- Witness for C6 at a concrete input. -/
theorem claim_C6_witness :
    WildMultiAsset.contains (WildMultiAsset.All : WildMultiAsset Nat)
      ⟨AssetId.Abstract [4], Fungibility.Fungible 1⟩ = true :=
  (claim_C6 (L := Nat)).1 ⟨AssetId.Abstract [4], Fungibility.Fungible 1⟩

/-- Claim C7 counterexample: a v0 list consisting of the `None` asset
converts successfully (to the empty collection) instead of failing, so
the vector conversion does not fail on every list that contains a
`None`-or-wildcard element. -/
theorem claim_C7_counterexample :
    MultiAssets.tryFromV0Vec (fun n : Nat => some n)
        [(V0.MultiAsset.None : V0.MultiAsset Nat)] =
      some (⟨[]⟩ : MultiAssets Nat) := by
  decide

/-- Claim C7 (amended): converting a single v0 `None` or wildcard to a v1
`MultiAsset` fails, and the vector conversion to `MultiAssets` fails
whenever the list contains a wildcard; `None` elements, however, are
silently dropped rather than causing a failure. -/
theorem claim_C7_amended {M L : Type} [LinearOrder L] :
    (∀ (conv : M → Option L) (z : V0.MultiAsset M),
      z = V0.MultiAsset.None ∨ z.is_wildcard = true →
      MultiAsset.tryFromV0 conv z = none) ∧
    (∀ (conv : M → Option L) (l : List (V0.MultiAsset M))
      (z : V0.MultiAsset M), z ∈ l → z.is_wildcard = true →
      MultiAssets.tryFromV0Vec conv l = none) ∧
    (∀ (conv : M → Option L) (l : List (V0.MultiAsset M)),
      MultiAssets.tryFromV0Vec conv (V0.MultiAsset.None :: l) =
        MultiAssets.tryFromV0Vec conv l) :=
  ⟨fun conv z hz => tryFromV0_wild_none conv z hz,
    fun conv l z hz hw => tryFromV0Vec_wild_none conv l z hz hw,
    fun _ _ => rfl⟩

/-- Witness for the amended C7 at a concrete input. -/
theorem claim_C7_witness :
    MultiAsset.tryFromV0 (fun n : Nat => some n)
        (V0.MultiAsset.All : V0.MultiAsset Nat) = (none : Option (MultiAsset Nat)) :=
  (claim_C7_amended (M := Nat) (L := Nat)).1 (fun n => some n)
    V0.MultiAsset.All (Or.inr (by decide))

/-- Claim C8: converting a v0 list to a single v1 `MultiAsset` or
`WildMultiAsset` fails for every list whose length is not one, and on a
one-element list it returns exactly the conversion of that element. -/
theorem claim_C8 {M L : Type} [LinearOrder L] :
    (∀ (conv : M → Option L) (l : List (V0.MultiAsset M)), l.length ≠ 1 →
      MultiAsset.tryFromV0Vec conv l = none ∧
        WildMultiAsset.tryFromV0Vec conv l = none) ∧
    (∀ (conv : M → Option L) (z : V0.MultiAsset M),
      MultiAsset.tryFromV0Vec conv [z] = MultiAsset.tryFromV0 conv z ∧
        WildMultiAsset.tryFromV0Vec conv [z] =
          WildMultiAsset.tryFromV0 conv z) := by
  constructor
  · intro conv l hl
    cases l with
    | nil => exact ⟨rfl, rfl⟩
    | cons x rest =>
      cases rest with
      | nil => exact absurd rfl hl
      | cons y rr => exact ⟨rfl, rfl⟩
  · intro conv z
    exact ⟨rfl, rfl⟩

/-- Witness for C8 at a concrete input. -/
theorem claim_C8_witness :
    MultiAsset.tryFromV0Vec (fun n : Nat => some n)
        ([] : List (V0.MultiAsset Nat)) = (none : Option (MultiAsset Nat)) :=
  ((claim_C8 (M := Nat) (L := Nat)).1 (fun n => some n) [] (by decide)).1

/-- Claim C9: the `MultiAsset` order puts every fungible asset strictly
before every non-fungible asset regardless of id, and on two assets of
the same fungibility kind it is the lexicographic order on the pair
`(id, fun)`. -/
theorem claim_C9 {L : Type} [LinearOrder L] :
    (∀ a b : MultiAsset L, isF a → isNF b →
      MultiAsset.cmp a b = Ordering.lt ∧
        MultiAsset.cmp b a = Ordering.gt) ∧
    (∀ a b : MultiAsset L, (isF a ∧ isF b) ∨ (isNF a ∧ isNF b) →
      MultiAsset.cmp a b =
        (AssetId.cmp a.id b.id).then (Fungibility.cmp a.«fun» b.«fun»)) := by
  constructor
  · intro a b haF hbN
    obtain ⟨x, hx⟩ := haF
    obtain ⟨u, hu⟩ := hbN
    obtain ⟨ia, fa⟩ := a
    obtain ⟨ib, fb⟩ := b
    simp only at hx hu
    subst hx hu
    exact ⟨cmp_mk_FN ia ib x u, cmp_mk_NF ib ia x u⟩
  · intro a b h
    obtain ⟨ia, fa⟩ := a
    obtain ⟨ib, fb⟩ := b
    rcases h with ⟨⟨x, hx⟩, ⟨y, hy⟩⟩ | ⟨⟨u, hu⟩, ⟨v, hv⟩⟩
    · simp only at hx hy
      subst hx hy
      rfl
    · simp only at hu hv
      subst hu hv
      rfl

/-- Witness for C9 at a concrete input. -/
theorem claim_C9_witness :
    MultiAsset.cmp
        (⟨AssetId.Abstract [9], Fungibility.Fungible 1⟩ : MultiAsset Nat)
        ⟨AssetId.Abstract [0], Fungibility.NonFungible AssetInstance.Undefined⟩ =
        Ordering.lt ∧
      MultiAsset.cmp
        (⟨AssetId.Abstract [0],
          Fungibility.NonFungible AssetInstance.Undefined⟩ : MultiAsset Nat)
        ⟨AssetId.Abstract [9], Fungibility.Fungible 1⟩ = Ordering.gt :=
  (claim_C9 (L := Nat)).1 _ _ ⟨1, rfl⟩ ⟨AssetInstance.Undefined, rfl⟩

/-- Claim C10 counterexample, refuting the claim in both of its failure
modes and thereby forcing each hypothesis of the amended statement.
First: pushing a non-fungible asset equal to an entry already present
turns an accepted (and sorted) collection into a rejected one.  Second:
acceptance by `from_sorted_and_deduplicated` does not imply sortedness by
the `MultiAsset` total order — the vector `[F(id1), NF(id0), F(id1)]`
with `id0 < id1` is accepted although its middle pair is out of order —
and on that accepted-but-unsorted collection even pushing a fresh
fungible asset of a brand-new id yields a rejected vector. -/
theorem claim_C10_counterexample :
    (MultiAssets.from_sorted_and_deduplicated
        (MultiAssets.mk
          [(⟨AssetId.Abstract [],
              Fungibility.NonFungible AssetInstance.Undefined⟩ :
            MultiAsset Nat)]).inner).isSome = true ∧
      (MultiAssets.from_sorted_and_deduplicated
        ((MultiAssets.mk
            [(⟨AssetId.Abstract [],
                Fungibility.NonFungible AssetInstance.Undefined⟩ :
              MultiAsset Nat)]).push
          ⟨AssetId.Abstract [],
            Fungibility.NonFungible AssetInstance.Undefined⟩).inner).isSome =
        false ∧
      (MultiAssets.from_sorted_and_deduplicated
        (MultiAssets.mk
          [(⟨AssetId.Abstract [1], Fungibility.Fungible 1⟩ : MultiAsset Nat),
            ⟨AssetId.Abstract [0],
              Fungibility.NonFungible AssetInstance.Undefined⟩,
            ⟨AssetId.Abstract [1], Fungibility.Fungible 2⟩]).inner).isSome =
        true ∧
      MultiAsset.cmp
        (⟨AssetId.Abstract [0],
            Fungibility.NonFungible AssetInstance.Undefined⟩ : MultiAsset Nat)
        ⟨AssetId.Abstract [1], Fungibility.Fungible 2⟩ = Ordering.gt ∧
      (MultiAssets.from_sorted_and_deduplicated
        ((MultiAssets.mk
            [(⟨AssetId.Abstract [1], Fungibility.Fungible 1⟩ : MultiAsset Nat),
              ⟨AssetId.Abstract [0],
                Fungibility.NonFungible AssetInstance.Undefined⟩,
              ⟨AssetId.Abstract [1], Fungibility.Fungible 2⟩]).push
          ⟨AssetId.Abstract [2], Fungibility.Fungible 3⟩).inner).isSome =
        false := by
  refine ⟨by decide, by decide, by decide, by decide, by decide⟩

/-- Claim C10 (amended): `push` preserves acceptance by
`from_sorted_and_deduplicated` for every collection whose inner vector is
sorted by the `MultiAsset` order and accepted, provided the pushed asset
is fungible or differs from every entry already present; pushing a
non-fungible duplicate breaks the invariant. -/
theorem claim_C10_amended {L : Type} [LinearOrder L] (s : MultiAssets L)
    (a : MultiAsset L)
    (hs : List.Sorted (fun x y => assetLe x y) s.inner)
    (hacc : (MultiAssets.from_sorted_and_deduplicated s.inner).isSome = true)
    (hfresh : a.is_non_fungible none = true → a ∉ s.inner) :
    (MultiAssets.from_sorted_and_deduplicated
      (MultiAssets.push s a).inner).isSome = true := by
  rw [from_sorted_isSome_iff] at hacc ⊢
  exact push_valid s a hs hacc
    (fun hN => hfresh ((is_non_fungible_none_iff a).mpr hN))

/-- Witness for the amended C10 at a concrete input. -/
theorem claim_C10_witness :
    (MultiAssets.from_sorted_and_deduplicated
      ((MultiAssets.mk ([] : List (MultiAsset Nat))).push
        ⟨AssetId.Abstract [], Fungibility.Fungible 5⟩).inner).isSome = true :=
  claim_C10_amended ⟨[]⟩ ⟨AssetId.Abstract [], Fungibility.Fungible 5⟩
    (by simp) (by decide) (by decide)
